import Mathlib

/-!
Verification of the cycling-training PMC engine, workout quality scorer and
speed solver (shallow embedding of `cycling_training.py`).

Modelling conventions:
* Calendar dates are integers (days); `date + timedelta(days=1)` becomes `d + 1`.
* Python floats are modelled as rationals; `round(x, 2)` is modelled as
  rounding to the nearest multiple of 1/100 (ties modelled by `round`,
  i.e. half-up; binary floats essentially never hit exact half-cent ties).
* The database table `training_load` is modelled as a list of `LoadPoint`;
  `ORDER BY date DESC LIMIT 1` becomes `latest`, and
  `INSERT ... ON CONFLICT (date) DO UPDATE` becomes `upsertAll`
  (replace the row with the same date in place, otherwise append).
* The daily stress query result is a list of `(date, tss)` rows; the Python
  dict `tss_by_date` with `.get(d, 0.0)` becomes `tssOf`.
* `date.today()` is an input parameter `today`.
-/

/-- A row of the `training_load` table: (date, daily_tss, ctl, atl, tsb). -/
structure LoadPoint where
  date : Int
  daily_tss : ℚ
  ctl : ℚ
  atl : ℚ
  tsb : ℚ
deriving DecidableEq

/-- Python `round(x, 2)`: round to the nearest multiple of 1/100. -/
def round2 (x : ℚ) : ℚ := (round (x * 100) : ℤ) / 100

/-- `tss_by_date = {r[0]: float(r[1]) for r in rows}` with `.get(d, 0.0)`.
(The SQL `GROUP BY date` makes dates unique in `rows`, so taking the first
match agrees with the Python dict.) -/
def tssOf (rows : List (Int × ℚ)) : Int → ℚ := fun d =>
  match rows.find? (fun r => r.1 = d) with
  | some r => r.2
  | none => 0

/-- `SELECT date, ctl, atl FROM training_load ORDER BY date DESC LIMIT 1`:
the row with the maximal date (dates are unique in the table). -/
def latest (store : List LoadPoint) : Option LoadPoint :=
  store.foldl
    (fun acc p =>
      match acc with
      | none => some p
      | some q => if q.date < p.date then some p else some q)
    none

/-- One row of `INSERT INTO training_load ... ON CONFLICT (date) DO UPDATE`. -/
def upsert1 (store : List LoadPoint) (p : LoadPoint) : List LoadPoint :=
  if store.any (fun q => q.date = p.date) then
    store.map (fun q => if q.date = p.date then p else q)
  else
    store ++ [p]

/-- `psycopg2.extras.execute_values` of the upsert over all result rows. -/
def upsertAll (store : List LoadPoint) (ps : List LoadPoint) : List LoadPoint :=
  ps.foldl upsert1 store

/-- `SELECT ... FROM training_load WHERE date = d` (first row with that date). -/
def findDate (store : List LoadPoint) (d : Int) : Option LoadPoint :=
  store.find? (fun p => p.date = d)

/-- The PMC while-loop body shared by both branches of `_calc_pmc_inner`:
`while d <= today: tss = tss_by_date.get(d, 0.0); ctl += (tss-ctl)/42;
atl += (tss-atl)/7; tsb = ctl-atl; results.append((d, tss, round(ctl,2),
round(atl,2), round(tsb,2))); d += 1`.  `n` is the number of remaining days
(`today - d + 1` clamped at 0). -/
def pmcLoop (tss : Int → ℚ) : Nat → Int → ℚ → ℚ → List LoadPoint
  | 0, _, _, _ => []
  | n + 1, d, c, a =>
    let t := tss d
    let c2 := c + (t - c) / 42
    let a2 := a + (t - a) / 7
    ⟨d, t, round2 c2, round2 a2, round2 (c2 - a2)⟩ :: pmcLoop tss n (d + 1) c2 a2

/-- The unrounded CTL/ATL carries of the loop: `pmcCarry tss d c a k` is the
pair of unrounded (ctl, atl) values after processing the `k` days
`d, d+1, ..., d+k-1`, starting from the seed `(c, a)`. -/
def pmcCarry (tss : Int → ℚ) (d : Int) (c a : ℚ) : Nat → ℚ × ℚ
  | 0 => (c, a)
  | k + 1 =>
    let prev := pmcCarry tss d c a k
    let t := tss (d + (k : Int))
    (prev.1 + (t - prev.1) / 42, prev.2 + (t - prev.2) / 7)

/-- `_calc_pmc_inner`: the PMC engine.  `store` is the current
`training_load` table, `rows` the daily-TSS query result (sorted ascending,
so the Python `rows[0][0]` is the head's date), `today` is `date.today()`.
Returns the table after the run (display-only reads are omitted). -/
def _calc_pmc_inner (store : List LoadPoint) (rows : List (Int × ℚ))
    (today : Int) : List LoadPoint :=
  match rows with
  | [] => store
  | r0 :: _ =>
    let tss := tssOf rows
    match latest store with
    | some anchor =>
      if 10 < anchor.ctl then
        -- anchored forward-fill from anchor_date + 1
        let start := anchor.date + 1
        if today < start then store
        else upsertAll store
          (pmcLoop tss (today + 1 - start).toNat start anchor.ctl anchor.atl)
      else
        -- cold start: full calculation from scratch
        upsertAll store (pmcLoop tss (today + 1 - r0.1).toNat r0.1 0 0)
    | none =>
      upsertAll store (pmcLoop tss (today + 1 - r0.1).toNat r0.1 0 0)

/-- `calc_workout_quality(tss_planned, tss_actual, if_planned, if_actual)`. -/
def calc_workout_quality (tp ta ip ia : Option ℚ) : Option ℚ :=
  match tp, ta, ip, ia with
  | some tp, some ta, some ip, some ia =>
    if tp = 0 ∨ ip = 0 then none
    else
      some (max 0 (min 100
        ((min (ta / tp) (6/5) / (6/5) * 100) * (1/2)
          + (100 - |ia - ip| / ip * 100) * (1/2))))
  | _, _, _, _ => none

/-- Modelled from the spec (section 4.3), for comparison with the code: the
quality-score formula with the stress ratio clamped below at 0 as well as
above at 1.2. -/
def quality_spec (tp ta ip ia : ℚ) : ℚ :=
  max 0 (min 100
    ((1/2) * (max 0 (min (ta / tp) (6/5)) / (6/5) * 100)
      + (1/2) * (100 - |ia - ip| / ip * 100)))

/-- `rho = 1.2  # air density kg/m3` -/
def rho : ℚ := 6/5

/-- `g = 9.81` -/
def g : ℚ := 981/100

/-- The Newton iteration of `_calc_speed_kph`: up to `n` more iterations,
current velocity `v` (m/s).  `if fp == 0: break` returns the current
estimate; a negative iterate is reset to the 1.0 m/s floor. -/
def newtonLoop (p m c r : ℚ) : Nat → ℚ → ℚ
  | 0, v => v
  | n + 1, v =>
    let f := r * m * g * v + 1/2 * rho * c * v ^ 3 - p
    let fp := r * m * g + 3/2 * rho * c * v ^ 2
    if fp = 0 then v
    else
      let v2 := v - f / fp
      newtonLoop p m c r n (if v2 < 0 then 1 else v2)

/-- `_calc_speed_kph(power_w, system_kg, cda, crr)`: 50 Newton iterations
from the initial guess 8.0 m/s, result converted to km/h. -/
def _calc_speed_kph (p m c r : ℚ) : ℚ := newtonLoop p m c r 50 8 * (18/5)

/-! ### General lemmas about the PMC loop and the store operations -/

/-- Rounding to the stored precision commutes with subtraction up to one
unit in the last stored place (1/100). -/
lemma round2_sub_bound (x y : ℚ) :
    |round2 (x - y) - (round2 x - round2 y)| ≤ 1/100 := by
  have hx := abs_sub_round (x * 100)
  have hy := abs_sub_round (y * 100)
  have hxy := abs_sub_round ((x - y) * 100)
  set nx : ℤ := round (x * 100) with hnx
  set ny : ℤ := round (y * 100) with hny
  set nxy : ℤ := round ((x - y) * 100) with hnxy
  have hsplit : ((nxy : ℚ) - nx + ny)
      = ((nxy : ℚ) - (x - y) * 100) - ((nx : ℚ) - x * 100) + ((ny : ℚ) - y * 100) := by
    ring
  have hx1 := abs_le.mp hx
  have hy1 := abs_le.mp hy
  have hxy1 := abs_le.mp hxy
  have hq : |((nxy : ℚ) - nx + ny)| ≤ 3/2 := by
    rw [hsplit, abs_le]
    constructor
    · linarith [hx1.1, hx1.2, hy1.1, hy1.2, hxy1.1, hxy1.2]
    · linarith [hx1.1, hx1.2, hy1.1, hy1.2, hxy1.1, hxy1.2]
  have hint : |nxy - nx + ny| ≤ 1 := by
    by_contra hcon
    push_neg at hcon
    have h2 : (2 : ℤ) ≤ |nxy - nx + ny| := hcon
    have h2q : (2 : ℚ) ≤ |((nxy - nx + ny : ℤ) : ℚ)| := by
      rw [← Int.cast_abs]
      exact_mod_cast h2
    push_cast at h2q
    linarith
  have hrepr : round2 (x - y) - (round2 x - round2 y) = ((nxy : ℚ) - nx + ny) / 100 := by
    unfold round2
    rw [← hnx, ← hny, ← hnxy]
    ring
  rw [hrepr, abs_div]
  have h100 : |(100 : ℚ)| = 100 := by norm_num
  rw [h100]
  have hcast : |((nxy : ℚ) - nx + ny)| ≤ 1 := by
    have h1 : ((|nxy - nx + ny| : ℤ) : ℚ) ≤ 1 := by exact_mod_cast hint
    rw [Int.cast_abs] at h1
    push_cast at h1
    exact h1
  linarith

/-- Shifting the unrounded-carry sequence by one processed day. -/
lemma pmcCarry_shift (tss : Int → ℚ) (d : Int) (c a : ℚ) : ∀ k : ℕ,
    pmcCarry tss (d + 1) (c + (tss d - c) / 42) (a + (tss d - a) / 7) k
      = pmcCarry tss d c a (k + 1) := by
  intro k
  induction k with
  | zero =>
    show _ = pmcCarry tss d c a (0 + 1)
    simp [pmcCarry]
  | succ k ih =>
    show pmcCarry tss (d + 1) _ _ (k + 1) = pmcCarry tss d c a (k + 1 + 1)
    simp only [pmcCarry, ih]
    have harg : d + 1 + (k : Int) = d + ((k + 1 : ℕ) : Int) := by push_cast; ring
    rw [harg]

/-- Closed form of the loop output: the k-th produced LoadPoint is day
`d + k` with the rounded values of the unrounded carries after `k + 1`
processed days. -/
lemma pmcLoop_getElem (tss : Int → ℚ) : ∀ (n k : ℕ) (d : Int) (c a : ℚ), k < n →
    (pmcLoop tss n d c a)[k]? =
      some ⟨d + (k : Int), tss (d + (k : Int)),
        round2 (pmcCarry tss d c a (k + 1)).1,
        round2 (pmcCarry tss d c a (k + 1)).2,
        round2 ((pmcCarry tss d c a (k + 1)).1 - (pmcCarry tss d c a (k + 1)).2)⟩ := by
  intro n
  induction n with
  | zero => intro k d c a hk; omega
  | succ n ih =>
    intro k d c a hk
    cases k with
    | zero =>
      simp [pmcLoop, pmcCarry]
    | succ k =>
      show (pmcLoop tss (n + 1) d c a)[k + 1]? = _
      have hstep : (pmcLoop tss (n + 1) d c a)[k + 1]?
          = (pmcLoop tss n (d + 1) (c + (tss d - c) / 42) (a + (tss d - a) / 7))[k]? := by
        simp [pmcLoop]
      rw [hstep, ih k (d + 1) _ _ (by omega)]
      rw [pmcCarry_shift]
      have harg : d + 1 + (k : Int) = d + ((k + 1 : ℕ) : Int) := by push_cast; ring
      rw [harg]

/-- Every date the loop emits is at least the starting date. -/
lemma pmcLoop_date_ge (tss : Int → ℚ) : ∀ (n : ℕ) (d : Int) (c a : ℚ) (q : LoadPoint),
    q ∈ pmcLoop tss n d c a → d ≤ q.date := by
  intro n
  induction n with
  | zero => intro d c a q hq; simp [pmcLoop] at hq
  | succ n ih =>
    intro d c a q hq
    simp only [pmcLoop, List.mem_cons] at hq
    rcases hq with h | h
    · rw [h]
    · have := ih (d + 1) _ _ q h
      omega

/-- Unfolding `findDate` over a cons cell. -/
lemma findDate_cons (x : LoadPoint) (l : List LoadPoint) (d : Int) :
    findDate (x :: l) d = if x.date = d then some x else findDate l d := by
  unfold findDate
  by_cases hx : x.date = d
  · rw [if_pos hx, List.find?_cons_of_pos _ (by simp [hx])]
  · rw [if_neg hx, List.find?_cons_of_neg _ (by simp [hx])]

/-- The conflict-update branch of the upsert leaves other dates alone. -/
lemma findDate_map_ne (t : List LoadPoint) (p : LoadPoint) (d : Int)
    (h : p.date ≠ d) :
    findDate (t.map (fun q => if q.date = p.date then p else q)) d
      = findDate t d := by
  induction t with
  | nil => rfl
  | cons q t ih =>
    simp only [List.map_cons]
    rw [findDate_cons, findDate_cons]
    by_cases hqp : q.date = p.date
    · rw [if_pos hqp, if_neg h, if_neg (show q.date ≠ d from hqp ▸ h), ih]
    · rw [if_neg hqp]
      by_cases hqd : q.date = d
      · rw [if_pos hqd, if_pos hqd]
      · rw [if_neg hqd, if_neg hqd, ih]

/-- The insert branch of the upsert leaves other dates alone. -/
lemma findDate_append_ne (t : List LoadPoint) (p : LoadPoint) (d : Int)
    (h : p.date ≠ d) : findDate (t ++ [p]) d = findDate t d := by
  induction t with
  | nil =>
    show findDate [p] d = findDate [] d
    rw [findDate_cons, if_neg h]
  | cons q t ih =>
    simp only [List.cons_append]
    rw [findDate_cons, findDate_cons, ih]

/-- Upserting a row with a different date does not change what `findDate`
returns for `d`. -/
lemma findDate_upsert1 (s : List LoadPoint) (p : LoadPoint) (d : Int)
    (h : p.date ≠ d) : findDate (upsert1 s p) d = findDate s d := by
  unfold upsert1
  by_cases hany : s.any (fun q => q.date = p.date)
  · rw [if_pos hany]
    exact findDate_map_ne s p d h
  · rw [if_neg hany]
    exact findDate_append_ne s p d h

/-- Upserting rows none of which is dated `d` does not change what
`findDate` returns for `d`. -/
lemma findDate_upsertAll (s : List LoadPoint) (ps : List LoadPoint) (d : Int)
    (h : ∀ q ∈ ps, q.date ≠ d) : findDate (upsertAll s ps) d = findDate s d := by
  induction ps generalizing s with
  | nil => rfl
  | cons p t ih =>
    show findDate (upsertAll (upsert1 s p) t) d = _
    rw [ih (upsert1 s p) (fun q hq => h q (List.mem_cons_of_mem p hq))]
    exact findDate_upsert1 s p d (h p (List.mem_cons_self p t))

/-- Every row of the upserted store is either an old row or one of the
upserted rows. -/
lemma mem_upsert1 (s : List LoadPoint) (p q : LoadPoint)
    (hq : q ∈ upsert1 s p) : q ∈ s ∨ q = p := by
  unfold upsert1 at hq
  by_cases hany : s.any (fun x => x.date = p.date)
  · rw [if_pos hany] at hq
    rcases List.mem_map.mp hq with ⟨x, hx, hfx⟩
    by_cases hxd : x.date = p.date
    · right; rw [if_pos hxd] at hfx; exact hfx.symm
    · left; rw [if_neg hxd] at hfx; exact hfx ▸ hx
  · rw [if_neg hany] at hq
    rcases List.mem_append.mp hq with h | h
    · exact Or.inl h
    · exact Or.inr (List.mem_singleton.mp h)

/-- Membership in the result of `upsertAll`. -/
lemma mem_upsertAll (s : List LoadPoint) (ps : List LoadPoint) (q : LoadPoint)
    (hq : q ∈ upsertAll s ps) : q ∈ s ∨ q ∈ ps := by
  induction ps generalizing s with
  | nil => exact Or.inl hq
  | cons p t ih =>
    rcases ih (upsert1 s p) hq with h | h
    · rcases mem_upsert1 s p q h with h1 | h1
      · exact Or.inl h1
      · exact Or.inr (h1 ▸ List.mem_cons_self p t)
    · exact Or.inr (List.mem_cons_of_mem p h)

/-- Every LoadPoint the loop emits satisfies the TSB identity up to one
unit in the last stored place. -/
lemma pmcLoop_tsb (tss : Int → ℚ) : ∀ (n : ℕ) (d : Int) (c a : ℚ) (q : LoadPoint),
    q ∈ pmcLoop tss n d c a → |q.tsb - (q.ctl - q.atl)| ≤ 1/100 := by
  intro n
  induction n with
  | zero => intro d c a q hq; simp [pmcLoop] at hq
  | succ n ih =>
    intro d c a q hq
    simp only [pmcLoop, List.mem_cons] at hq
    rcases hq with h | h
    · rw [h]
      exact round2_sub_bound _ _
    · exact ih (d + 1) _ _ q h

/-! ### Lemmas about the Newton iteration -/

/-- A Newton step from a nonnegative point lands at a positive point on or
above the root: the next iterate `w = (2bv^3+p)/(a+3bv^2)` satisfies
`w > 0` and `f(w) >= 0` (convexity of `f(v) = a v + b v^3 - p`). -/
lemma newton_step_inv (a b p v : ℚ) (ha : 0 < a) (hb : 0 ≤ b) (hp : 0 < p)
    (hv : 0 ≤ v) :
    0 < (2*b*v^3 + p) / (a + 3*b*v^2)
    ∧ p ≤ a * ((2*b*v^3 + p) / (a + 3*b*v^2))
        + b * ((2*b*v^3 + p) / (a + 3*b*v^2))^3 := by
  have hbv2 : 0 ≤ b * v^2 := mul_nonneg hb (sq_nonneg v)
  have hbv3 : 0 ≤ b * v^3 := mul_nonneg hb (pow_nonneg hv 3)
  have hD : 0 < a + 3*b*v^2 := by nlinarith
  have hnum : 0 < 2*b*v^3 + p := by nlinarith
  refine ⟨div_pos hnum hD, ?_⟩
  have key : a * ((2*b*v^3 + p) / (a + 3*b*v^2))
        + b * ((2*b*v^3 + p) / (a + 3*b*v^2))^3 - p
      = b * (a*v + b*v^3 - p)^2 * (2*a*v + 8*b*v^3 + p) / (a + 3*b*v^2)^3 := by
    field_simp
    ring
  have hfac : 0 ≤ b * (a*v + b*v^3 - p)^2 * (2*a*v + 8*b*v^3 + p) := by
    have h1 : 0 ≤ b * (a*v + b*v^3 - p)^2 := mul_nonneg hb (sq_nonneg _)
    have h2 : 0 ≤ 2*a*v + 8*b*v^3 + p := by nlinarith [mul_nonneg ha.le hv]
    exact mul_nonneg h1 h2
  have hpos : 0 ≤ b * (a*v + b*v^3 - p)^2 * (2*a*v + 8*b*v^3 + p) / (a + 3*b*v^2)^3 :=
    div_nonneg hfac (by positivity)
  linarith [key ▸ hpos]

/-- The Newton-step map is monotone in the current point on the region at
or above the root. -/
lemma newton_step_mono_v (a b p v w : ℚ) (ha : 0 < a) (hb : 0 ≤ b)
    (hv : 0 < v) (hvw : v ≤ w) (hinv : p ≤ a*v + b*v^3) :
    (2*b*v^3 + p) / (a + 3*b*v^2) ≤ (2*b*w^3 + p) / (a + 3*b*w^2) := by
  have hw : 0 < w := lt_of_lt_of_le hv hvw
  have hDv : 0 < a + 3*b*v^2 := by nlinarith [mul_nonneg hb (sq_nonneg v)]
  have hDw : 0 < a + 3*b*w^2 := by nlinarith [mul_nonneg hb (sq_nonneg w)]
  rw [div_le_div_iff hDv hDw]
  have key : (2*b*w^3 + p) * (a + 3*b*v^2) - (2*b*v^3 + p) * (a + 3*b*w^2)
      = (w - v) * b * ((2*w + v)*(w - v)*(a + 3*b*v^2)
          + 3*(v + w)*(a*v + b*v^3 - p)) := by
    ring
  have h1 : 0 ≤ (2*w + v)*(w - v)*(a + 3*b*v^2) := by
    have : 0 ≤ (2*w + v)*(w - v) :=
      mul_nonneg (by linarith) (by linarith)
    exact mul_nonneg this hDv.le
  have h2 : 0 ≤ 3*(v + w)*(a*v + b*v^3 - p) := by
    have : 0 ≤ a*v + b*v^3 - p := by linarith
    exact mul_nonneg (by linarith) this
  nlinarith [mul_nonneg (mul_nonneg (sub_nonneg.mpr hvw) hb) (add_nonneg h1 h2)]

/-- The Newton-step map is strictly increasing in the power target. -/
lemma newton_step_mono_p (a b p q v : ℚ) (hD : 0 < a + 3*b*v^2)
    (hpq : p < q) :
    (2*b*v^3 + p) / (a + 3*b*v^2) < (2*b*v^3 + q) / (a + 3*b*v^2) := by
  rw [div_lt_div_iff hD hD]
  nlinarith

/-- Under positive rolling resistance and a positive power target, the
loop body takes the pure Newton step (neither guard fires). -/
lemma newtonLoop_succ_pos (p m c r : ℚ) (n : ℕ) (v : ℚ)
    (hm : 0 < r * m) (hc : 0 ≤ c) (hp : 0 < p) (hv : 0 ≤ v) :
    newtonLoop p m c r (n + 1) v
      = newtonLoop p m c r n
          ((2*(1/2*rho*c)*v^3 + p) / (r*m*g + 3*(1/2*rho*c)*v^2)) := by
  have hg : (0:ℚ) < g := by norm_num [g]
  have ha : 0 < r * m * g := mul_pos hm hg
  have hb : (0:ℚ) ≤ 1/2*rho*c := by rw [rho]; linarith
  have hstep :=
    newton_step_inv (r*m*g) (1/2*rho*c) p v ha hb hp hv
  have hD : 0 < r*m*g + 3*(1/2*rho*c)*v^2 := by
    nlinarith [mul_nonneg hb (sq_nonneg v)]
  have hfp : ¬ (r * m * g + 3/2 * rho * c * v ^ 2 = 0) := by
    intro hzero
    have : r*m*g + 3*(1/2*rho*c)*v^2 = r * m * g + 3/2 * rho * c * v ^ 2 := by ring
    rw [this, hzero] at hD
    exact lt_irrefl 0 hD
  have hne1 : r * m * g + 3/2 * rho * c * v ^ 2 ≠ 0 := hfp
  have hne2 : r*m*g + 3*(1/2*rho*c)*v^2 ≠ 0 := hD.ne'
  have hne3 : v ^ 2 * rho * c * 3 + r * m * g * 2 ≠ 0 := by
    intro h0
    apply hne2
    have hdouble : r*m*g + 3*(1/2*rho*c)*v^2
        = (v ^ 2 * rho * c * 3 + r * m * g * 2) / 2 := by ring
    rw [hdouble, h0]
    norm_num
  have hv2 : v - (r * m * g * v + 1/2 * rho * c * v ^ 3 - p)
        / (r * m * g + 3/2 * rho * c * v ^ 2)
      = (2*(1/2*rho*c)*v^3 + p) / (r*m*g + 3*(1/2*rho*c)*v^2) := by
    rw [sub_div' _ _ _ hne1, div_eq_div_iff hne1 hne2]
    ring
  simp only [newtonLoop]
  rw [if_neg hfp, hv2, if_neg (not_lt.mpr hstep.1.le)]

/-- Monotonicity in the power target of the whole Newton iteration, for
positive rolling resistance, nonnegative drag and positive powers: the
invariant `0 < vp`, `vp < vq`, `f_p(vp) >= 0` is preserved by the step. -/
lemma newtonLoop_mono (m c r : ℚ) (hm : 0 < r * m) (hc : 0 ≤ c) :
    ∀ (n : ℕ) (p q vp vq : ℚ), 0 < p → p < q → 0 < vp → vp < vq →
      p ≤ r*m*g*vp + 1/2*rho*c*vp^3 →
      newtonLoop p m c r n vp < newtonLoop q m c r n vq := by
  have hg : (0:ℚ) < g := by norm_num [g]
  have ha : 0 < r * m * g := mul_pos hm hg
  have hb : (0:ℚ) ≤ 1/2*rho*c := by rw [rho]; linarith
  intro n
  induction n with
  | zero =>
    intro p q vp vq hp hpq hvp hvpq hinv
    simpa [newtonLoop] using hvpq
  | succ n ih =>
    intro p q vp vq hp hpq hvp hvpq hinv
    have hq : 0 < q := hp.trans hpq
    have hvq : 0 < vq := hvp.trans hvpq
    rw [newtonLoop_succ_pos p m c r n vp hm hc hp hvp.le,
        newtonLoop_succ_pos q m c r n vq hm hc hq hvq.le]
    have hinvP := newton_step_inv (r*m*g) (1/2*rho*c) p vp ha hb hp hvp.le
    have hDq : 0 < r*m*g + 3*(1/2*rho*c)*vq^2 := by
      nlinarith [mul_nonneg hb (sq_nonneg vq)]
    have hmono1 :
        (2*(1/2*rho*c)*vp^3 + p) / (r*m*g + 3*(1/2*rho*c)*vp^2)
          ≤ (2*(1/2*rho*c)*vq^3 + p) / (r*m*g + 3*(1/2*rho*c)*vq^2) :=
      newton_step_mono_v (r*m*g) (1/2*rho*c) p vp vq ha hb hvp hvpq.le hinv
    have hmono2 :
        (2*(1/2*rho*c)*vq^3 + p) / (r*m*g + 3*(1/2*rho*c)*vq^2)
          < (2*(1/2*rho*c)*vq^3 + q) / (r*m*g + 3*(1/2*rho*c)*vq^2) :=
      newton_step_mono_p (r*m*g) (1/2*rho*c) p q vq hDq hpq
    exact ih p q _ _ hp hpq hinvP.1 (lt_of_le_of_lt hmono1 hmono2) hinvP.2

/-- From a point at or above the root the Newton iterates never rise: the
whole remaining run is bounded by the current iterate. -/
lemma newtonLoop_le_self (p m c r : ℚ) (hm : 0 < r * m) (hc : 0 ≤ c)
    (hp : 0 < p) :
    ∀ (n : ℕ) (v : ℚ), 0 < v → p ≤ r*m*g*v + 1/2*rho*c*v^3 →
      newtonLoop p m c r n v ≤ v := by
  have hg : (0:ℚ) < g := by norm_num [g]
  have ha : 0 < r * m * g := mul_pos hm hg
  have hb : (0:ℚ) ≤ 1/2*rho*c := by rw [rho]; linarith
  intro n
  induction n with
  | zero =>
    intro v hv hinv
    simp [newtonLoop]
  | succ n ih =>
    intro v hv hinv
    rw [newtonLoop_succ_pos p m c r n v hm hc hp hv.le]
    have hstep := newton_step_inv (r*m*g) (1/2*rho*c) p v ha hb hp hv.le
    have hD : 0 < r*m*g + 3*(1/2*rho*c)*v^2 := by
      nlinarith [mul_nonneg hb (sq_nonneg v)]
    have hwv : (2*(1/2*rho*c)*v^3 + p) / (r*m*g + 3*(1/2*rho*c)*v^2) ≤ v := by
      rw [div_le_iff hD]
      nlinarith
    exact le_trans (ih _ hstep.1 hstep.2) hwv

/-- The Newton iterates never drop below any point `L` at or below the
root (`f(L) <= 0`): `f` is increasing, every iterate keeps `f >= 0`, and
the seed is already above `L`. -/
lemma newtonLoop_lower_bound (p m c r L : ℚ) (hm : 0 < r * m) (hc : 0 ≤ c)
    (hp : 0 < p) (hL : 0 ≤ L) (hfL : r*m*g*L + 1/2*rho*c*L^3 ≤ p) :
    ∀ (n : ℕ) (v : ℚ), 0 < v → p ≤ r*m*g*v + 1/2*rho*c*v^3 →
      L ≤ newtonLoop p m c r n v := by
  have hg : (0:ℚ) < g := by norm_num [g]
  have ha : 0 < r * m * g := mul_pos hm hg
  have hb : (0:ℚ) ≤ 1/2*rho*c := by rw [rho]; linarith
  intro n
  induction n with
  | zero =>
    intro v hv hinv
    simp only [newtonLoop]
    by_contra hcon
    push_neg at hcon
    have h3 : (0:ℚ) ≤ L^2 + L*v + v^2 := by
      nlinarith [mul_nonneg hL hv.le, sq_nonneg L, sq_nonneg v]
    have h4 : 0 < r*m*g * (L - v) := mul_pos ha (sub_pos.mpr hcon)
    have h5 : 0 ≤ 1/2*rho*c * ((L - v) * (L^2 + L*v + v^2)) :=
      mul_nonneg hb (mul_nonneg (sub_pos.mpr hcon).le h3)
    nlinarith [h4, h5]
  | succ n ih =>
    intro v hv hinv
    rw [newtonLoop_succ_pos p m c r n v hm hc hp hv.le]
    have hstep := newton_step_inv (r*m*g) (1/2*rho*c) p v ha hb hp hv.le
    exact ih _ hstep.1 hstep.2

/-- Separation criterion for the CdA comparison: if some `L` is at or
below the root of the low-drag run (`f_low(L) <= p` as a power balance)
while the high-drag run's first Newton iterate from 8 m/s is already
below `L`, then the high-drag speed is strictly below the low-drag
speed. -/
lemma newton_cda_separation (p m r c1 c2 L : ℚ) (hm : 0 < r * m)
    (hc1 : 0 ≤ c1) (hc2 : 0 ≤ c2) (hp : 0 < p) (hL : 0 ≤ L)
    (hlow : r*m*g*L + 1/2*rho*c1*L^3 ≤ p)
    (hhigh : (2*(1/2*rho*c2)*(8:ℚ)^3 + p) / (r*m*g + 3*(1/2*rho*c2)*(8:ℚ)^2) < L) :
    _calc_speed_kph p m c2 r < _calc_speed_kph p m c1 r := by
  unfold _calc_speed_kph
  have h50 : (50 : ℕ) = 49 + 1 := by norm_num
  rw [h50, newtonLoop_succ_pos p m c2 r 49 8 hm hc2 hp (by norm_num),
      newtonLoop_succ_pos p m c1 r 49 8 hm hc1 hp (by norm_num)]
  have hg : (0:ℚ) < g := by norm_num [g]
  have ha : 0 < r * m * g := mul_pos hm hg
  have hb1 : (0:ℚ) ≤ 1/2*rho*c1 := by rw [rho]; linarith
  have hb2 : (0:ℚ) ≤ 1/2*rho*c2 := by rw [rho]; linarith
  have hinv2 := newton_step_inv (r*m*g) (1/2*rho*c2) p 8 ha hb2 hp (by norm_num)
  have hinv1 := newton_step_inv (r*m*g) (1/2*rho*c1) p 8 ha hb1 hp (by norm_num)
  have hup := newtonLoop_le_self p m c2 r hm hc2 hp 49 _ hinv2.1 hinv2.2
  have hlo := newtonLoop_lower_bound p m c1 r L hm hc1 hp hL hlow 49 _ hinv1.1 hinv1.2
  exact mul_lt_mul_of_pos_right
    (lt_of_le_of_lt hup (lt_of_lt_of_le hhigh hlo)) (by norm_num)

/-! ### Claim theorems: quality scorer (C5, C7) -/

/-- Claim C5, counterexample: the claimed formula clamps the stress ratio
below at 0, but the code only caps it above at 1.2.  At
(planned, actual) stress = (100, -240) with matching intensities the code
returns 0 while the claimed formula gives 50. -/
theorem c5_quality_formula_counterexample :
    calc_workout_quality (some 100) (some (-240)) (some (4/5)) (some (4/5)) = some 0
    ∧ quality_spec 100 (-240) (4/5) (4/5) = 50
    ∧ (some (0:ℚ) : Option ℚ) ≠ some 50 := by
  refine ⟨?_, ?_, by simp⟩
  · norm_num [calc_workout_quality, min_def, max_def, abs]
  · norm_num [quality_spec, min_def, max_def, abs]

/-- Claim C5, amended: whenever all four inputs are present,
planned_stress and planned_intensity are nonzero, and the stress ratio is
nonnegative (as it always is for nonnegative stress values), the code
computes exactly the claimed clamped formula; the lower clamp at 0 is
absent from the code and matters only for a negative ratio. -/
theorem c5_quality_formula_amended (tp ta ip ia : ℚ) (htp : tp ≠ 0)
    (hip : ip ≠ 0) (hrat : 0 ≤ ta / tp) :
    calc_workout_quality (some tp) (some ta) (some ip) (some ia)
      = some (quality_spec tp ta ip ia) := by
  simp only [calc_workout_quality, quality_spec]
  rw [if_neg (by tauto)]
  have hmax : max 0 (min (ta / tp) (6/5)) = min (ta / tp) (6/5) :=
    max_eq_right (le_min hrat (by norm_num))
  rw [hmax]
  congr 1
  congr 1
  congr 1
  ring

/-- Claim C5, witness: the spec scenario score(100, 110, 0.80, 0.78)
= 1135/12 (≈ 94.58). -/
theorem c5_quality_formula_witness :
    calc_workout_quality (some 100) (some 110) (some (4/5)) (some (39/50))
      = some (quality_spec 100 110 (4/5) (39/50))
    ∧ quality_spec 100 110 (4/5) (39/50) = 1135/12 := by
  constructor
  · exact c5_quality_formula_amended 100 110 (4/5) (39/50)
      (by norm_num) (by norm_num) (by norm_num)
  · norm_num [quality_spec, min_def, max_def, abs]

/-- Claim C7: the scorer returns no score exactly when an input is missing
or planned stress or planned intensity is zero, and any returned score
lies in [0, 100]. -/
theorem c7_quality_definedness (tp ta ip ia : Option ℚ) :
    (calc_workout_quality tp ta ip ia = none
      ↔ tp = none ∨ ta = none ∨ ip = none ∨ ia = none
        ∨ tp = some 0 ∨ ip = some 0)
    ∧ ∀ s : ℚ, calc_workout_quality tp ta ip ia = some s → 0 ≤ s ∧ s ≤ 100 := by
  constructor
  · rcases tp with _ | tp <;> rcases ta with _ | ta <;>
      rcases ip with _ | ip <;> rcases ia with _ | ia <;>
      simp [calc_workout_quality]
    tauto
  · intro s hs
    rcases tp with _ | tp <;> rcases ta with _ | ta <;>
      rcases ip with _ | ip <;> rcases ia with _ | ia <;>
      simp [calc_workout_quality] at hs
    rcases hs with ⟨⟨htp, hip⟩, hval⟩
    constructor
    · rw [← hval]; exact le_max_left 0 _
    · rw [← hval]
      exact max_le (by norm_num) (min_le_left 100 _)

/-- Claim C7, witness: at the spec scenario inputs the returned score
1135/12 lies in [0, 100]. -/
theorem c7_quality_definedness_witness :
    (0:ℚ) ≤ 1135/12 ∧ (1135/12:ℚ) ≤ 100 :=
  (c7_quality_definedness (some 100) (some 110) (some (4/5)) (some (39/50))).2
    (1135/12) (by norm_num [calc_workout_quality, min_def, max_def, abs])

/-! ### Claim theorems: speed solver (C8, C9) -/

/-- Claim C8, counterexample: with both drag coefficients zero the
derivative guard fires immediately and the solver returns the initial
guess (28.8 km/h) for every power, so the output is not strictly
increasing in power; and at zero power with zero rolling resistance the
output is the same for CdA = 1 and CdA = 2, so it is not strictly
decreasing in CdA. -/
theorem c8_monotonicity_counterexample :
    ((100:ℚ) < 200 ∧ _calc_speed_kph 100 85 0 0 = _calc_speed_kph 200 85 0 0)
    ∧ ((1:ℚ) < 2 ∧ _calc_speed_kph 0 85 1 0 = _calc_speed_kph 0 85 2 0) := by
  refine ⟨⟨by norm_num, ?_⟩, ⟨by norm_num, ?_⟩⟩
  · norm_num [_calc_speed_kph, newtonLoop, rho, g]
  · norm_num [_calc_speed_kph, newtonLoop, rho, g]

/-- Claim C8, amended: for fixed system mass, CdA and Crr with positive
rolling-resistance term (crr * mass > 0) and CdA >= 0, the returned
speed_kph is strictly increasing in power over positive powers; and
halving CdA at the same power strictly increases the returned speed at
the spec scenario (power 200 W, mass 85 kg, Crr 0.004, CdA 0.35 halved
to 0.175).  Only the degenerate zero-coefficient inputs exhibited by the
counterexample are excluded. -/
theorem c8_monotonicity_amended :
    (∀ p q m c r : ℚ, 0 < r * m → 0 ≤ c → 0 < p → p < q →
        _calc_speed_kph p m c r < _calc_speed_kph q m c r)
    ∧ _calc_speed_kph 200 85 (7/20) (1/250)
        < _calc_speed_kph 200 85 (7/40) (1/250) := by
  constructor
  · intro p q m c r hm hc hp hpq
    unfold _calc_speed_kph
    have h50 : (50 : ℕ) = 49 + 1 := by norm_num
    rw [h50, newtonLoop_succ_pos p m c r 49 8 hm hc hp (by norm_num),
        newtonLoop_succ_pos q m c r 49 8 hm hc (hp.trans hpq) (by norm_num)]
    have hg : (0:ℚ) < g := by norm_num [g]
    have ha : 0 < r * m * g := mul_pos hm hg
    have hb : (0:ℚ) ≤ 1/2*rho*c := by rw [rho]; linarith
    have hinvP := newton_step_inv (r*m*g) (1/2*rho*c) p 8 ha hb hp (by norm_num)
    have hD8 : 0 < r*m*g + 3*(1/2*rho*c)*(8:ℚ)^2 := by
      nlinarith [mul_nonneg hb (sq_nonneg (8:ℚ))]
    have hm2 := newton_step_mono_p (r*m*g) (1/2*rho*c) p q 8 hD8 hpq
    have hmain := newtonLoop_mono m c r hm hc 49 p q _ _ hp hpq
      hinvP.1 (lt_of_le_of_lt (le_refl _) hm2) hinvP.2
    exact mul_lt_mul_of_pos_right hmain (by norm_num)
  · exact newton_cda_separation 200 85 (1/250) (7/40) (7/20) 11
      (by norm_num) (by norm_num) (by norm_num) (by norm_num) (by norm_num)
      (by norm_num [rho, g]) (by norm_num [rho, g])

/-- Claim C8, witness: at mass 85, CdA 0, Crr 1/250, raising power from
100 W to 200 W strictly increases the returned speed; and the
halving-CdA instance of the amended claim at the spec scenario. -/
theorem c8_monotonicity_witness :
    _calc_speed_kph 100 85 0 (1/250) < _calc_speed_kph 200 85 0 (1/250)
    ∧ _calc_speed_kph 200 85 (7/20) (1/250)
        < _calc_speed_kph 200 85 (7/40) (1/250) :=
  ⟨c8_monotonicity_amended.1 100 200 85 0 (1/250) (by norm_num) (by norm_num)
    (by norm_num) (by norm_num), c8_monotonicity_amended.2⟩

/-- Claim C9: the speed solver is a total function running exactly 50
Newton iterations from the fixed guess 8.0 m/s and returning v * 3.6;
when the derivative is zero it stops and returns the current estimate,
and when an iteration drives the velocity negative it continues from the
1.0 m/s floor instead. -/
theorem c9_speed_guards (p m c r v : ℚ) (n : ℕ) :
    _calc_speed_kph p m c r = newtonLoop p m c r 50 8 * (18/5)
    ∧ (r * m * g + 3/2 * rho * c * v ^ 2 = 0 → newtonLoop p m c r (n + 1) v = v)
    ∧ (r * m * g + 3/2 * rho * c * v ^ 2 ≠ 0 →
        v - (r * m * g * v + 1/2 * rho * c * v ^ 3 - p)
            / (r * m * g + 3/2 * rho * c * v ^ 2) < 0 →
        newtonLoop p m c r (n + 1) v = newtonLoop p m c r n 1) := by
  refine ⟨rfl, ?_, ?_⟩
  · intro h
    simp only [newtonLoop]
    rw [if_pos h]
  · intro h1 h2
    simp only [newtonLoop]
    rw [if_neg h1, if_pos h2]

/-- Claim C9, witness: a huge negative power drives the first iterate
negative; the guard resets it to the 1.0 m/s floor and the solver does
not diverge or raise. -/
theorem c9_speed_guards_witness :
    newtonLoop (-1000000) 1 0 1 1 8 = 1 := by
  have h := (c9_speed_guards (-1000000) 1 0 1 8 0).2.2
    (by norm_num [rho, g]) (by norm_num [rho, g])
  rw [h]
  rfl

/-! ### Claim theorems: PMC engine (C1, C2, C3, C4, C6, C10) -/

/-- Claim C10: the loop stores `round2` of each day's unrounded CTL and
ATL, computes tsb from the unrounded values and rounds it independently,
and carries the unrounded values into the next day; and an anchored run
reseeds the recurrence from the stored (hence rounded) anchor CTL/ATL. -/
theorem c10_stored_rounding (tss : Int → ℚ) (n : ℕ) (d : Int) (c a : ℚ)
    (store : List LoadPoint) (rows : List (Int × ℚ)) (today : Int)
    (r0 : Int × ℚ) (rest : List (Int × ℚ)) (anchor : LoadPoint)
    (hrows : rows = r0 :: rest) (hanchor : latest store = some anchor)
    (hctl : 10 < anchor.ctl) (hstart : anchor.date + 1 ≤ today) :
    pmcLoop tss (n + 1) d c a =
      ⟨d, tss d, round2 (c + (tss d - c) / 42), round2 (a + (tss d - a) / 7),
        round2 ((c + (tss d - c) / 42) - (a + (tss d - a) / 7))⟩
        :: pmcLoop tss n (d + 1) (c + (tss d - c) / 42) (a + (tss d - a) / 7)
    ∧ _calc_pmc_inner store rows today =
        upsertAll store
          (pmcLoop (tssOf rows) (today + 1 - (anchor.date + 1)).toNat
            (anchor.date + 1) anchor.ctl anchor.atl) := by
  constructor
  · rfl
  · subst hrows
    simp only [_calc_pmc_inner, hanchor]
    rw [if_pos hctl, if_neg (by omega)]

/-- Claim C10, witness: the anchored run at anchor (CTL, ATL) = (55, 60)
with next-day stress 80 upserts the loop's output, whose stored CTL is
the two-decimal rounding 55.6 of the unrounded carry. -/
theorem c10_stored_rounding_witness :
    _calc_pmc_inner [⟨10, 0, 55, 60, -5⟩] [(11, 80)] 11
      = upsertAll [⟨10, 0, 55, 60, -5⟩]
          (pmcLoop (tssOf [(11, 80)]) ((11 : Int) + 1 - (10 + 1)).toNat 11 55 60)
    ∧ round2 (55 + (80 - 55) / 42) = 278/5 := by
  constructor
  · exact (c10_stored_rounding (tssOf [(11, 80)]) 0 11 55 60
      [⟨10, 0, 55, 60, -5⟩] [(11, 80)] 11 (11, 80) [] ⟨10, 0, 55, 60, -5⟩
      rfl (by norm_num [latest]) (by norm_num) (by norm_num)).2
  · norm_num [round2, round_eq]

/-- Claim C1, counterexample: the engine does not write the exact
recurrence value `55 + (80-55)/42` for the day after the anchor; it
writes its two-decimal rounding 55.6. -/
theorem c1_recurrence_counterexample :
    findDate (_calc_pmc_inner [⟨10, 0, 55, 60, -5⟩] [(11, 80)] 11) 11
      = some ⟨11, 80, 278/5, 3143/50, -363/50⟩
    ∧ (278/5 : ℚ) ≠ 55 + (80 - 55) / 42 := by
  constructor
  · norm_num [_calc_pmc_inner, pmcLoop, tssOf, latest, upsertAll, upsert1,
      findDate, round2, round_eq, List.find?, LoadPoint.mk.injEq]
  · norm_num

/-- Claim C1, amended: in anchored mode (anchor exists, CTL > 10,
anchor_date + 1 <= today) the engine upserts exactly the loop output
seeded from the anchor's CTL/ATL, and the k-th written day is
`anchor_date + 1 + k` carrying stress `tss[d]` (0 when absent) whose
stored values are the two-decimal roundings of the unrounded recurrence
`ctl' = ctl + (stress - ctl)/42`, `atl' = atl + (stress - atl)/7`,
`tsb' = ctl' - atl'` (`pmcCarry`). -/
theorem c1_recurrence_amended (store : List LoadPoint)
    (rows : List (Int × ℚ)) (today : Int) (r0 : Int × ℚ)
    (rest : List (Int × ℚ)) (anchor : LoadPoint)
    (hrows : rows = r0 :: rest) (hanchor : latest store = some anchor)
    (hctl : 10 < anchor.ctl) (hstart : anchor.date + 1 ≤ today) :
    _calc_pmc_inner store rows today =
      upsertAll store
        (pmcLoop (tssOf rows) (today + 1 - (anchor.date + 1)).toNat
          (anchor.date + 1) anchor.ctl anchor.atl)
    ∧ ∀ k : ℕ, k < (today + 1 - (anchor.date + 1)).toNat →
        (pmcLoop (tssOf rows) (today + 1 - (anchor.date + 1)).toNat
          (anchor.date + 1) anchor.ctl anchor.atl)[k]? =
        some ⟨anchor.date + 1 + (k : Int),
          tssOf rows (anchor.date + 1 + (k : Int)),
          round2 (pmcCarry (tssOf rows) (anchor.date + 1) anchor.ctl
            anchor.atl (k + 1)).1,
          round2 (pmcCarry (tssOf rows) (anchor.date + 1) anchor.ctl
            anchor.atl (k + 1)).2,
          round2 ((pmcCarry (tssOf rows) (anchor.date + 1) anchor.ctl
            anchor.atl (k + 1)).1
            - (pmcCarry (tssOf rows) (anchor.date + 1) anchor.ctl
                anchor.atl (k + 1)).2)⟩ := by
  constructor
  · subst hrows
    simp only [_calc_pmc_inner, hanchor]
    rw [if_pos hctl, if_neg (by omega)]
  · intro k hk
    exact pmcLoop_getElem (tssOf rows) _ k (anchor.date + 1)
      anchor.ctl anchor.atl hk

/-- Claim C1, witness: the spec scenario — anchor day 10 with CTL = 55,
ATL = 60, stress 80 on day 11, run on day 11: the engine appends
day 11 with ctl = round2(55 + (80-55)/42) = 55.6 and
atl = round2(60 + (80-60)/7) = 62.86. -/
theorem c1_recurrence_witness :
    _calc_pmc_inner [⟨10, 0, 55, 60, -5⟩] [(11, 80)] 11
      = [⟨10, 0, 55, 60, -5⟩, ⟨11, 80, 278/5, 3143/50, -363/50⟩]
    ∧ round2 (55 + (80 - 55) / 42) = 278/5
    ∧ round2 (60 + (80 - 60) / 7) = 3143/50 := by
  have h := c1_recurrence_amended [⟨10, 0, 55, 60, -5⟩] [(11, 80)] 11
    (11, 80) [] ⟨10, 0, 55, 60, -5⟩ rfl (by norm_num [latest])
    (by norm_num) (by norm_num)
  refine ⟨?_, by norm_num [round2, round_eq], by norm_num [round2, round_eq]⟩
  rw [h.1]
  norm_num [pmcLoop, tssOf, upsertAll, upsert1, round2, round_eq,
    List.find?, LoadPoint.mk.injEq]

/-- Claim C3, counterexample: when the most recent LoadPoint has CTL <= 10
the engine runs cold start and rewrites points dated strictly before the
most recent (anchor) LoadPoint: here the point at day 0 (before the
anchor at day 1) is rewritten from (5, 5, 0) to (0, 0, 0). -/
theorem c3_anchor_immutability_counterexample :
    latest [⟨0, 0, 5, 5, 0⟩, (⟨1, 0, 5, 5, 0⟩ : LoadPoint)] = some ⟨1, 0, 5, 5, 0⟩
    ∧ findDate (_calc_pmc_inner [⟨0, 0, 5, 5, 0⟩, ⟨1, 0, 5, 5, 0⟩] [(0, 0)] 1) 0
        = some ⟨0, 0, 0, 0, 0⟩
    ∧ findDate [(⟨0, 0, 5, 5, 0⟩ : LoadPoint), ⟨1, 0, 5, 5, 0⟩] 0
        = some ⟨0, 0, 5, 5, 0⟩
    ∧ some (⟨0, 0, 0, 0, 0⟩ : LoadPoint) ≠ some (⟨0, 0, 5, 5, 0⟩ : LoadPoint) := by
  refine ⟨by norm_num [latest], ?_, by norm_num [findDate, List.find?],
    by simp [LoadPoint.mk.injEq]⟩
  norm_num [_calc_pmc_inner, pmcLoop, tssOf, latest, upsertAll, upsert1,
    findDate, round2, round_eq, List.find?, LoadPoint.mk.injEq]

/-- Claim C3, amended: an anchored recompute (most recent LoadPoint has
CTL > 10) never changes any LoadPoint dated on or before the anchor
date. -/
theorem c3_anchor_immutability_amended (store : List LoadPoint)
    (rows : List (Int × ℚ)) (today : Int) (p : LoadPoint)
    (hp : latest store = some p) (hctl : 10 < p.ctl) :
    ∀ d : Int, d ≤ p.date →
      findDate (_calc_pmc_inner store rows today) d = findDate store d := by
  intro d hd
  cases rows with
  | nil => rfl
  | cons r0 rest =>
    simp only [_calc_pmc_inner, hp]
    rw [if_pos hctl]
    by_cases htoday : today < p.date + 1
    · rw [if_pos htoday]
    · rw [if_neg htoday]
      apply findDate_upsertAll
      intro q hq
      have hge := pmcLoop_date_ge (tssOf (r0 :: rest)) _ _ _ _ q hq
      omega

/-- Claim C3, witness: the spec scenario anchor at day 10 is untouched by
the anchored run on day 11. -/
theorem c3_anchor_immutability_witness :
    findDate (_calc_pmc_inner [⟨10, 0, 55, 60, -5⟩] [(11, 80)] 11) 10
      = findDate [(⟨10, 0, 55, 60, -5⟩ : LoadPoint)] 10
    ∧ findDate [(⟨10, 0, 55, 60, -5⟩ : LoadPoint)] 10 = some ⟨10, 0, 55, 60, -5⟩ := by
  constructor
  · exact c3_anchor_immutability_amended [⟨10, 0, 55, 60, -5⟩] [(11, 80)] 11
      ⟨10, 0, 55, 60, -5⟩ (by norm_num [latest]) (by norm_num) 10 (by norm_num)
  · norm_num [findDate, List.find?]

/-- Claim C2, counterexample: idempotence fails when the first (anchored)
run drives the latest CTL to 10 or below: the second run flips to cold
start and rewrites the whole series differently.  Anchor CTL = 10.2,
zero stress, one new day: the rerun output differs from the first run's
output. -/
theorem c2_idempotence_counterexample :
    _calc_pmc_inner (_calc_pmc_inner [⟨0, 0, 51/5, 0, 51/5⟩] [(0, 0)] 1) [(0, 0)] 1
      ≠ _calc_pmc_inner [⟨0, 0, 51/5, 0, 51/5⟩] [(0, 0)] 1 := by
  norm_num [_calc_pmc_inner, pmcLoop, tssOf, latest, upsertAll, upsert1,
    round2, round_eq, List.find?, LoadPoint.mk.injEq]

/-- Claim C2, amended: idempotence holds provided the first run leaves the
most recent LoadPoint with CTL > 10 and date >= today (as an anchored run
through today does): rerunning with unchanged inputs writes nothing and
returns the identical series, and a run on day today+1 leaves every point
dated <= today exactly as the first run left it. -/
theorem c2_idempotence_amended (store : List LoadPoint)
    (rows : List (Int × ℚ)) (today : Int) (s1 : List LoadPoint)
    (p : LoadPoint) (hs1 : s1 = _calc_pmc_inner store rows today)
    (hp : latest s1 = some p) (hctl : 10 < p.ctl) (hdate : today ≤ p.date) :
    _calc_pmc_inner s1 rows today = s1
    ∧ ∀ d : Int, d ≤ today →
        findDate (_calc_pmc_inner s1 rows (today + 1)) d = findDate s1 d := by
  constructor
  · cases rows with
    | nil => rfl
    | cons r0 rest =>
      simp only [_calc_pmc_inner, hp]
      rw [if_pos hctl, if_pos (by omega)]
  · intro d hd
    cases rows with
    | nil => rfl
    | cons r0 rest =>
      simp only [_calc_pmc_inner, hp]
      rw [if_pos hctl]
      by_cases h2 : today + 1 < p.date + 1
      · rw [if_pos h2]
      · rw [if_neg h2]
        apply findDate_upsertAll
        intro q hq
        have hge := pmcLoop_date_ge (tssOf (r0 :: rest)) _ _ _ _ q hq
        omega

/-- Claim C2, witness: after an anchored run through day 1 leaving CTL
55.6 > 10, rerunning on day 1 returns the identical series and a run on
day 2 leaves the day-0 point unchanged. -/
theorem c2_idempotence_witness :
    _calc_pmc_inner (_calc_pmc_inner [⟨0, 0, 55, 60, -5⟩] [(1, 80)] 1) [(1, 80)] 1
      = _calc_pmc_inner [⟨0, 0, 55, 60, -5⟩] [(1, 80)] 1
    ∧ findDate (_calc_pmc_inner (_calc_pmc_inner [⟨0, 0, 55, 60, -5⟩] [(1, 80)] 1)
          [(1, 80)] 2) 0
        = findDate (_calc_pmc_inner [⟨0, 0, 55, 60, -5⟩] [(1, 80)] 1) 0 := by
  have h := c2_idempotence_amended [⟨0, 0, 55, 60, -5⟩] [(1, 80)] 1
    (_calc_pmc_inner [⟨0, 0, 55, 60, -5⟩] [(1, 80)] 1)
    ⟨1, 80, 278/5, 3143/50, -363/50⟩ rfl
    (by norm_num [_calc_pmc_inner, pmcLoop, tssOf, latest, upsertAll,
      upsert1, round2, round_eq, List.find?])
    (by norm_num) (by norm_num)
  exact ⟨h.1, h.2 0 (by norm_num)⟩

/-- Claim C4, counterexample: the cold-start loop runs through `today`,
not merely through the most recent date with data: with a single data row
at day 0 and today = 2 the engine writes three LoadPoints, padding days 1
and 2 with zero stress. -/
theorem c4_cold_start_counterexample :
    _calc_pmc_inner [] [(0, 50)] 2
      = [⟨0, 50, 119/100, 357/50, -119/20⟩, ⟨1, 0, 29/25, 153/25, -124/25⟩,
         ⟨2, 0, 113/100, 21/4, -411/100⟩]
    ∧ (_calc_pmc_inner [] [(0, 50)] 2).length ≠ 1 := by
  have heval : _calc_pmc_inner [] [(0, 50)] 2
      = [⟨0, 50, 119/100, 357/50, -119/20⟩, ⟨1, 0, 29/25, 153/25, -124/25⟩,
         ⟨2, 0, 113/100, 21/4, -411/100⟩] := by
    norm_num [_calc_pmc_inner, pmcLoop, tssOf, latest, upsertAll, upsert1,
      round2, round_eq, List.find?, LoadPoint.mk.injEq]
  refine ⟨heval, ?_⟩
  rw [heval]
  norm_num

/-- Claim C4, amended: when there is no prior LoadPoint or the most
recent one has CTL <= 10, the engine seeds CTL = ATL = 0 at the first
data row's date and applies the recurrence day by day with no gaps
through `today` (which coincides with the most recent date with data in
normal daily operation), (re)writing every computed day: the k-th written
day is `first_date + k` with the rounded recurrence values. -/
theorem c4_cold_start_amended (store : List LoadPoint)
    (rows : List (Int × ℚ)) (today : Int) (r0 : Int × ℚ)
    (rest : List (Int × ℚ)) (hrows : rows = r0 :: rest)
    (hanchor : ∀ p : LoadPoint, latest store = some p → p.ctl ≤ 10) :
    _calc_pmc_inner store rows today
      = upsertAll store (pmcLoop (tssOf rows) (today + 1 - r0.1).toNat r0.1 0 0)
    ∧ ∀ k : ℕ, k < (today + 1 - r0.1).toNat →
        (pmcLoop (tssOf rows) (today + 1 - r0.1).toNat r0.1 0 0)[k]? =
          some ⟨r0.1 + (k : Int), tssOf rows (r0.1 + (k : Int)),
            round2 (pmcCarry (tssOf rows) r0.1 0 0 (k + 1)).1,
            round2 (pmcCarry (tssOf rows) r0.1 0 0 (k + 1)).2,
            round2 ((pmcCarry (tssOf rows) r0.1 0 0 (k + 1)).1
              - (pmcCarry (tssOf rows) r0.1 0 0 (k + 1)).2)⟩ := by
  constructor
  · subst hrows
    cases hl : latest store with
    | none => simp only [_calc_pmc_inner, hl]
    | some p =>
      simp only [_calc_pmc_inner, hl]
      rw [if_neg (not_lt.mpr (hanchor p hl))]
  · intro k hk
    exact pmcLoop_getElem (tssOf rows) _ k r0.1 0 0 hk

/-- Claim C4, witness: the spec cold-start scenario — stress series
{day1: 50, day2: 0, day3: 100}, no anchor, today = day3 — produces
exactly three LoadPoints computed from CTL = ATL = 0 at day 1. -/
theorem c4_cold_start_witness :
    _calc_pmc_inner [] [(1, 50), (2, 0), (3, 100)] 3
      = [⟨1, 50, 119/100, 357/50, -119/20⟩, ⟨2, 0, 29/25, 153/25, -124/25⟩,
         ⟨3, 100, 88/25, 1953/100, -801/50⟩] := by
  have h := c4_cold_start_amended [] [(1, 50), (2, 0), (3, 100)] 3 (1, 50)
    [(2, 0), (3, 100)] rfl (by intro p hp; simp [latest] at hp)
  rw [h.1]
  norm_num [pmcLoop, tssOf, upsertAll, upsert1, round2, round_eq,
    List.find?, LoadPoint.mk.injEq]

/-- Claim C6: every LoadPoint in the engine's output is either a
pre-existing row of the store or a newly written row satisfying the TSB
identity `tsb = ctl - atl` up to the stored precision (1/100), in both
cold-start and anchored modes. -/
theorem c6_tsb_identity (store : List LoadPoint) (rows : List (Int × ℚ))
    (today : Int) :
    ∀ q ∈ _calc_pmc_inner store rows today,
      q ∈ store ∨ |q.tsb - (q.ctl - q.atl)| ≤ 1/100 := by
  intro q hq
  cases rows with
  | nil => exact Or.inl hq
  | cons r0 rest =>
    cases hl : latest store with
    | none =>
      simp only [_calc_pmc_inner, hl] at hq
      rcases mem_upsertAll _ _ _ hq with h | h
      · exact Or.inl h
      · exact Or.inr (pmcLoop_tsb _ _ _ _ _ q h)
    | some p =>
      by_cases hctl : 10 < p.ctl
      · by_cases htoday : today < p.date + 1
        · simp only [_calc_pmc_inner, hl] at hq
          rw [if_pos hctl, if_pos htoday] at hq
          exact Or.inl hq
        · simp only [_calc_pmc_inner, hl] at hq
          rw [if_pos hctl, if_neg htoday] at hq
          rcases mem_upsertAll _ _ _ hq with h | h
          · exact Or.inl h
          · exact Or.inr (pmcLoop_tsb _ _ _ _ _ q h)
      · simp only [_calc_pmc_inner, hl] at hq
        rw [if_neg hctl] at hq
        rcases mem_upsertAll _ _ _ hq with h | h
        · exact Or.inl h
        · exact Or.inr (pmcLoop_tsb _ _ _ _ _ q h)

/-- Claim C6, witness: the day-11 point written by the anchored spec
scenario satisfies the TSB identity at the stored precision. -/
theorem c6_tsb_identity_witness :
    |(-363/50 : ℚ) - (278/5 - 3143/50)| ≤ 1/100 := by
  have h := c6_tsb_identity [⟨10, 0, 55, 60, -5⟩] [(11, 80)] 11
    ⟨11, 80, 278/5, 3143/50, -363/50⟩
    (by norm_num [_calc_pmc_inner, pmcLoop, tssOf, latest, upsertAll,
      upsert1, round2, round_eq, List.find?, LoadPoint.mk.injEq])
  rcases h with h | h
  · exfalso
    simp [LoadPoint.mk.injEq] at h
  · exact h
